import Mathlib

/-!
Verification of the multi-source skill aggregation engine of the Skill-Sense
repository. The JavaScript/TypeScript code is shallowly embedded: JS strings
become `List Char`, JS numbers become `ℚ`, a JS `Map` becomes an association
list whose `set` updates in place (preserving insertion order, as JS `Map`
does), and each client/server function becomes a pure Lean function over
explicit inputs (network calls appear as `Except`-valued oracle parameters).

Main embedded code:
* `mergeSkills` — src/components/UnifiedDataImport.tsx, lines 345-374
  (identical logic at src/pages/Index.tsx, lines 298-320);
* `handleAggregateExtract` — src/components/UnifiedDataImport.tsx, 466-530;
* `normalizeExtractSkill` — supabase/functions/extract-skills/index.ts, 168-188;
* `githubNormalizeSkill` — supabase/functions/github-skill-extract/index.ts, 237-245;
* `githubServeGuard` / `clientGithubBody` — the request-key handshake between
  UnifiedDataImport.tsx (412-417) and github-skill-extract/index.ts (28-38).
-/

/-- A Lean string literal as the `List Char` the embedding works with. -/
def strL (s : String) : List Char := s.data

/-- Whitespace as JS `trim` removes it (space, tab, newline and friends). -/
def jsWhitespaceChar (c : Char) : Bool :=
  c = ' ' || c = '\t' || c = '\n' || c = '\r' || c = Char.ofNat 11 || c = Char.ofNat 12

/-- JS `String.prototype.trim`: drop whitespace from both ends. -/
def jsTrim (s : List Char) : List Char :=
  ((s.dropWhile jsWhitespaceChar).reverse.dropWhile jsWhitespaceChar).reverse

/-- JS `String.prototype.toLowerCase`, character by character. -/
def jsToLower (s : List Char) : List Char := s.map Char.toLower

/-- The merge key of a skill name: `skill_name.toLowerCase().trim()`
(UnifiedDataImport.tsx line 349). -/
def skillKey (name : List Char) : List Char := jsTrim (jsToLower name)

/-- Does `sub` sit at the very start of `big`? (Helper for `jsIncludes`.) -/
def jsStartsWith : List Char → List Char → Bool
  | _, [] => true
  | [], _ :: _ => false
  | c :: cs, d :: ds => c == d && jsStartsWith cs ds

/-- JS `String.prototype.includes`: `sub` occurs contiguously inside `big`. -/
def jsIncludes : List Char → List Char → Bool
  | [], sub => sub.isEmpty
  | c :: t, sub => jsStartsWith (c :: t) sub || jsIncludes t sub

/-- JS `[...new Set(l)]`: keep the first occurrence of each element, in
insertion order. -/
def jsSetDedup (l : List (List Char)) : List (List Char) :=
  l.foldl (fun acc x => if x ∈ acc then acc else acc ++ [x]) []

/-- The separator the merge uses when it appends a new source label. -/
def commaSpace : List Char := strL ", "

/-- The client-side skill record (`ExtractedSkill` interface,
UnifiedDataImport.tsx lines 307-316). Optional JSON fields are `Option`. -/
structure ExtractedSkill where
  skill_name : List Char
  skill_type : List Char
  confidence_score : ℚ
  evidence : List (List Char)
  cluster : Option (List Char)
  microstory : Option (List Char)
  state : Option (List Char)
  source : List Char
deriving DecidableEq, Repr, Inhabited

/-- One duplicate-key merge step (UnifiedDataImport.tsx lines 351-367): the
running average of confidences, the Set-union of evidence, and the source
label appended only when `existing.source.includes(skill.source)` is false.
All remaining fields are spread from `existing` unchanged. -/
def combineSkills (existing s : ExtractedSkill) : ExtractedSkill :=
  { existing with
    confidence_score := (existing.confidence_score + s.confidence_score) / 2
    evidence := jsSetDedup (existing.evidence ++ s.evidence)
    source := if jsIncludes existing.source s.source then existing.source
              else existing.source ++ commaSpace ++ s.source }

/-- JS `Map.prototype.get` on the association-list model. -/
def mapGet (m : List (List Char × ExtractedSkill)) (k : List Char) :
    Option ExtractedSkill :=
  match m with
  | [] => none
  | (k0, v) :: rest => if k0 = k then some v else mapGet rest k

/-- JS `Map.prototype.set`: replace in place when the key exists (keeping its
insertion position), append otherwise. -/
def mapSet (m : List (List Char × ExtractedSkill)) (k : List Char)
    (v : ExtractedSkill) : List (List Char × ExtractedSkill) :=
  match m with
  | [] => [(k, v)]
  | (k0, w) :: rest => if k0 = k then (k0, v) :: rest else (k0, w) :: mapSet rest k v

/-- One iteration of the `forEach` body of `mergeSkills`. -/
def mergeStep (m : List (List Char × ExtractedSkill)) (s : ExtractedSkill) :
    List (List Char × ExtractedSkill) :=
  mapSet m (skillKey s.skill_name)
    (match mapGet m (skillKey s.skill_name) with
     | some existing => combineSkills existing s
     | none => s)

/-- The deduplicating Aggregator (`mergeSkills`, UnifiedDataImport.tsx lines
345-374): flatten the per-source arrays, fold the map-building loop, and
return the map values in insertion order. -/
def mergeSkills (skillsArray : List (List ExtractedSkill)) : List ExtractedSkill :=
  ((skillsArray.flatten).foldl mergeStep []).map Prod.snd

/-- The candidates of one aggregation input that share the merge key `k`, in
input order: exactly the skills the accumulator entry for `k` was built from. -/
def mergeContrib (skillsArray : List (List ExtractedSkill)) (k : List Char) :
    List ExtractedSkill :=
  (skillsArray.flatten).filter (fun s => skillKey s.skill_name = k)

/-- Left-to-right running pairwise average, the literal
`(existing + new) / 2` recurrence of the merge loop. -/
def runAvg (q : ℚ) (l : List ℚ) : ℚ := l.foldl (fun a b => (a + b) / 2) q

/-- The evidence accumulator of a merged entry as a standalone fold. -/
def evFold (e : List (List Char)) (cs : List ExtractedSkill) : List (List Char) :=
  cs.foldl (fun acc s => jsSetDedup (acc ++ s.evidence)) e

/-- The source-label accumulator of a merged entry as a standalone fold. -/
def srcFold (src : List Char) (cs : List ExtractedSkill) : List Char :=
  cs.foldl (fun acc s => if jsIncludes acc s.source then acc
                         else acc ++ commaSpace ++ s.source) src

/-- Folding `combineSkills` over the later contributors of a key. -/
def combineMany (c : ExtractedSkill) (cs : List ExtractedSkill) : ExtractedSkill :=
  cs.foldl combineSkills c

/-! ## Source orchestration (SmartAggregateExtract, UnifiedDataImport.tsx 300-530) -/

/-- A skill record as the client receives it from an edge function; the
client treats the payload as `any`, so every defaultable field is `Option`. -/
structure OracleSkill where
  skill_name : List Char
  skill_type : List Char
  confidence_score : ℚ
  evidence : Option (List (List Char))
  cluster : Option (List Char)
  microstory : Option (List Char)
  state : Option (List Char)
deriving DecidableEq, Repr, Inhabited

/-- JS `x || d` on a string-valued field: `undefined`, `null` and the empty
string are falsy and fall back to the default. -/
def jsOrStr (o : Option (List Char)) (d : List Char) : List Char :=
  match o with
  | none => d
  | some s => if s.isEmpty then d else s

/-- JS `x || d` on an array-valued field: a present array (even empty) is
truthy. -/
def jsOrArr (o : Option (List (List Char))) (d : List (List Char)) :
    List (List Char) :=
  match o with
  | none => d
  | some a => a

/-- The per-skill decoration every extract function applies to the oracle
payload (UnifiedDataImport.tsx lines 390-397, 421-428, 449-456):
`{...s, source, evidence: s.evidence || [], cluster: s.cluster || <default>,
microstory: s.microstory || '', state: s.state || 'unlocked'}`. -/
def decorateSkill (srcLabel clusterDefault : List Char) (s : OracleSkill) :
    ExtractedSkill :=
  { skill_name := s.skill_name
    skill_type := s.skill_type
    confidence_score := s.confidence_score
    evidence := jsOrArr s.evidence []
    cluster := some (jsOrStr s.cluster clusterDefault)
    microstory := some (jsOrStr s.microstory [])
    state := some (jsOrStr s.state (strL "unlocked"))
    source := srcLabel }

/-- Per-source progress states (`ExtractionSource.status`). -/
inductive SourceStatus where
  | pending
  | processing
  | completed
  | error
deriving DecidableEq, Repr, Inhabited

/-- The `ExtractionSource` record (UnifiedDataImport.tsx lines 300-305). -/
structure SourceRec where
  name : List Char
  status : SourceStatus
  skillsCount : Nat
  error : Option (List Char)
deriving DecidableEq, Repr, Inhabited

/-- One extract function (`extractFromDocument` / `extractFromGitHub` /
`extractFromText`): the whole parse-and-invoke pipeline is the `oracle`
parameter; on success the source completes with the decorated skills and
their count, on any thrown error the source alone moves to `error` with the
message and a count of 0, returning an empty list. -/
def runExtract (statusName srcLabel clusterDefault : List Char)
    (oracle : Except (List Char) (List OracleSkill)) :
    SourceRec × List ExtractedSkill :=
  match oracle with
  | .error e => (⟨statusName, SourceStatus.error, 0, some e⟩, [])
  | .ok raws =>
      (⟨statusName, SourceStatus.completed,
        (raws.map (decorateSkill srcLabel clusterDefault)).length, none⟩,
       raws.map (decorateSkill srcLabel clusterDefault))

/-- The inputs of one aggregate-extract run: the three optional sources, the
Auto Merge toggle, and one oracle outcome per source adapter. -/
structure RunInput where
  file : Bool
  githubUsername : List Char
  githubToken : List Char
  textInput : List Char
  autoMerge : Bool
  profileId : List Char
  docOracle : Except (List Char) (List OracleSkill)
  githubOracle : Except (List Char) (List OracleSkill)
  textOracle : Except (List Char) (List OracleSkill)

/-- Document source present: `if (file)`. -/
def docPresent (inp : RunInput) : Bool := inp.file

/-- GitHub source present: `if (githubUsername.trim())`. -/
def githubPresent (inp : RunInput) : Bool := !(jsTrim inp.githubUsername).isEmpty

/-- Text source present: `if (textInput.trim())`. -/
def textPresent (inp : RunInput) : Bool := !(jsTrim inp.textInput).isEmpty

/-- The `availableSources` names pushed at lines 468-471, in push order. -/
def availableSources (inp : RunInput) : List (List Char) :=
  (if docPresent inp then [strL "Document"] else []) ++
  (if githubPresent inp then [strL "GitHub"] else []) ++
  (if textPresent inp then [strL "Text"] else [])

/-- The settled per-source results, in the order the extraction promises are
pushed at lines 486-488. The Text source reports status under the name
`Text` but labels its skills `Text Input` (lines 441 and 451), and the
cluster defaults differ per source. -/
def extractionResults (inp : RunInput) : List (SourceRec × List ExtractedSkill) :=
  (if docPresent inp then
    [runExtract (strL "Document") (strL "Document") (strL "Other") inp.docOracle]
   else []) ++
  (if githubPresent inp then
    [runExtract (strL "GitHub") (strL "GitHub") (strL "Technical") inp.githubOracle]
   else []) ++
  (if textPresent inp then
    [runExtract (strL "Text") (strL "Text Input") (strL "Other") inp.textOracle]
   else [])

/-- The row shape handed to the `skills` table insert (lines 499-508). -/
structure InsertRec where
  profile_id : List Char
  skill_name : List Char
  skill_type : List Char
  confidence_score : ℚ
  evidence : List (List Char)
  cluster : List Char
  microstory : List Char
  state : List Char
deriving DecidableEq, Repr, Inhabited

/-- `skillsToInsert` mapping of one merged skill (lines 499-508). -/
def toInsertRec (pid : List Char) (s : ExtractedSkill) : InsertRec :=
  { profile_id := pid
    skill_name := s.skill_name
    skill_type := s.skill_type
    confidence_score := s.confidence_score
    evidence := s.evidence
    cluster := jsOrStr s.cluster (strL "Other")
    microstory := jsOrStr s.microstory []
    state := jsOrStr s.state (strL "unlocked") }

/-- The toast text of the zero-source rejection (line 474). -/
def noInputMsg : List Char :=
  strL "Please provide at least one data source (Document, GitHub, or Text)"

/-- What one `handleAggregateExtract` run produces: the rejection (if any),
the final per-source status records, the adapters launched, the list handed
to persistence, and the batch actually inserted. -/
structure RunResult where
  rejected : Option (List Char)
  statuses : List SourceRec
  invoked : List (List Char)
  merged : List ExtractedSkill
  persisted : Option (List InsertRec)

/-- The aggregate-extract orchestrator (UnifiedDataImport.tsx lines 466-530):
reject when no source is present; otherwise run every present source, merge
(or plainly concatenate when Auto Merge is off), and insert when nonempty. -/
def handleAggregateExtract (inp : RunInput) : RunResult :=
  if (availableSources inp).isEmpty then
    { rejected := some noInputMsg, statuses := [], invoked := [], merged := [],
      persisted := none }
  else
    { rejected := none
      statuses := (extractionResults inp).map Prod.fst
      invoked := availableSources inp
      merged :=
        if inp.autoMerge then mergeSkills ((extractionResults inp).map Prod.snd)
        else ((extractionResults inp).map Prod.snd).flatten
      persisted :=
        if (if inp.autoMerge then mergeSkills ((extractionResults inp).map Prod.snd)
            else ((extractionResults inp).map Prod.snd).flatten).isEmpty then none
        else some ((if inp.autoMerge then
                      mergeSkills ((extractionResults inp).map Prod.snd)
                    else ((extractionResults inp).map Prod.snd).flatten).map
                   (toInsertRec inp.profileId)) }

/-- The Document list that reaches the merge (empty when absent or failed). -/
def docSkillList (inp : RunInput) : List ExtractedSkill :=
  if docPresent inp then
    (runExtract (strL "Document") (strL "Document") (strL "Other") inp.docOracle).2
  else []

/-- The GitHub list that reaches the merge. -/
def githubSkillList (inp : RunInput) : List ExtractedSkill :=
  if githubPresent inp then
    (runExtract (strL "GitHub") (strL "GitHub") (strL "Technical") inp.githubOracle).2
  else []

/-- The Text list that reaches the merge. -/
def textSkillList (inp : RunInput) : List ExtractedSkill :=
  if textPresent inp then
    (runExtract (strL "Text") (strL "Text Input") (strL "Other") inp.textOracle).2
  else []

/-! ## Edge-function normalization (extract-skills and github-skill-extract) -/

/-- A raw oracle skill as the extract-skills function receives it from the
model response (any JSON object; every field it touches is `Option`). -/
structure RawSkillIn where
  skill_name : Option (List Char)
  name : Option (List Char)
  skill_type : Option (List Char)
  confidence_score : Option ℚ
  confidence : Option ℚ
  evidence : Option (List (List Char))
  cluster : Option (List Char)
  microstory : Option (List Char)
  state : Option (List Char)
deriving DecidableEq, Repr, Inhabited

/-- A fully normalized skill as the edge functions emit it. -/
structure NormSkill where
  skill_name : List Char
  skill_type : List Char
  confidence_score : ℚ
  evidence : List (List Char)
  cluster : List Char
  microstory : List Char
  state : List Char
deriving DecidableEq, Repr, Inhabited

/-- JS nullish coalescing `x ?? d`: only `undefined`/`null` fall through. -/
def jsNullish {α : Type} (o : Option α) (d : α) : α := o.getD d

/-- The clamped confidence the extract-skills normalization computes:
`Number(s.confidence_score ?? s.confidence ?? 0.8)` then
`Math.max(0, Math.min(1, score))` (lines 171-173). -/
def extractSkillsScore (s : RawSkillIn) : ℚ :=
  max 0 (min 1 (jsNullish s.confidence_score (jsNullish s.confidence (4/5))))

/-- The per-skill normalization of the extract-skills function
(supabase/functions/extract-skills/index.ts lines 168-188). -/
def normalizeExtractSkill (s : RawSkillIn) : NormSkill :=
  { skill_name := jsTrim (jsNullish s.skill_name (jsNullish s.name []))
    skill_type :=
      match s.skill_type with
      | some t => if t = strL "implicit" ∨ t = strL "explicit" then t
                  else strL "explicit"
      | none => strL "explicit"
    confidence_score := extractSkillsScore s
    evidence :=
      ((jsOrArr s.evidence []).filter (fun e => !(jsTrim e).isEmpty)).take 3
    cluster := jsOrStr s.cluster (strL "Other")
    microstory := jsTrim (jsOrStr s.microstory (strL "No story available"))
    state := jsOrStr s.state
      (if extractSkillsScore s < 1/2 then strL "locked" else strL "unlocked") }

/-- The whole normalize-and-validate pass of extract-skills: map then drop
entries with an empty name (line 188). -/
def extractSkillsNormalize (skills : List RawSkillIn) : List NormSkill :=
  (skills.map normalizeExtractSkill).filter (fun s => !s.skill_name.isEmpty)

/-- A raw skill as github-skill-extract receives it from the model. -/
structure GithubRawSkill where
  skill_name : Option (List Char)
  skill_type : Option (List Char)
  confidence_score : Option ℚ
  evidence : Option (List (List Char))
  cluster : Option (List Char)
  microstory : Option (List Char)
  state : Option (List Char)
deriving DecidableEq, Repr, Inhabited

/-- JS `x || d` on a number: 0 (and NaN) is falsy. -/
def jsOrQ (o : Option ℚ) (d : ℚ) : ℚ :=
  match o with
  | none => d
  | some q => if q = 0 then d else q

/-- The per-skill normalization of github-skill-extract
(supabase/functions/github-skill-extract/index.ts lines 237-245). Note the
`state` field: it is always recomputed from the raw supplied
`skill.confidence_score >= 0.5` comparison (an absent value compares false),
never taken from the incoming `state`. -/
def githubNormalizeSkill (githubUsername : List Char) (skill : GithubRawSkill) :
    NormSkill :=
  { skill_name := jsOrStr skill.skill_name (strL "Unknown")
    skill_type := jsOrStr skill.skill_type (strL "explicit")
    confidence_score := min (max (jsOrQ skill.confidence_score (1/2)) 0) 1
    evidence := (jsOrArr skill.evidence []).take 5
    cluster := jsOrStr skill.cluster (strL "Technical")
    microstory := jsOrStr skill.microstory
      (strL "Extracted from GitHub profile @" ++ githubUsername)
    state :=
      match skill.confidence_score with
      | some q => if 1/2 ≤ q then strL "unlocked" else strL "locked"
      | none => strL "locked" }

/-- The normalization github-skill-extract maps over the parsed skills. -/
def githubNormalize (githubUsername : List Char) (skills : List GithubRawSkill) :
    List NormSkill :=
  skills.map (githubNormalizeSkill githubUsername)

/-! ## The GitHub request-body key handshake (claim C9) -/

/-- The JSON body every client call site builds for github-skill-extract
(UnifiedDataImport.tsx lines 412-417 and 78-83, Index.tsx lines 266-271):
`{ username, token: token || undefined }`; a falsy token is dropped from the
serialized body. -/
def clientGithubBody (username token : List Char) : List (List Char × List Char) :=
  [(strL "username", username)] ++
  (if token.isEmpty then [] else [(strL "token", token)])

/-- Field access on a parsed JSON object body. -/
def jsLookupBody : List (List Char × List Char) → List Char → Option (List Char)
  | [], _ => none
  | (k, v) :: rest, key => if k = key then some v else jsLookupBody rest key

/-- The early part of the github-skill-extract serve handler
(github-skill-extract/index.ts lines 28-38): destructure `githubUsername`
and `githubToken` from the body, throw when `githubUsername` is falsy, then
require the `GOOGLE_API_KEY` environment value. Errors become the 500
response payload of the catch block. -/
def githubServeGuard (body : List (List Char × List Char))
    (googleApiKey : Option (List Char)) : Except (List Char) (List Char) :=
  match jsLookupBody body (strL "githubUsername") with
  | none => Except.error (strL "GitHub username is required")
  | some u =>
      if u.isEmpty then Except.error (strL "GitHub username is required")
      else
        match googleApiKey with
        | none => Except.error (strL "GOOGLE_API_KEY not configured")
        | some _ => Except.ok u

/-! ## Small spec-side helpers used only to state claims -/

/-- Splitting a joined source label back into its comma-space segments
(the claim language "segment of the joined string"). -/
def splitCommaSpaceAux : List Char → List Char → List (List Char)
  | [], acc => [acc.reverse]
  | ',' :: ' ' :: rest, acc => acc.reverse :: splitCommaSpaceAux rest []
  | c :: rest, acc => splitCommaSpaceAux rest (c :: acc)

/-- Segments of a joined source label. -/
def splitCommaSpace (s : List Char) : List (List Char) := splitCommaSpaceAux s []

/-- Minimum of a list of rationals, `none` when empty. -/
def listMinQ : List ℚ → Option ℚ
  | [] => none
  | q :: l =>
      match listMinQ l with
      | none => some q
      | some m => some (min q m)

/-- Maximum of a list of rationals, `none` when empty. -/
def listMaxQ : List ℚ → Option ℚ
  | [] => none
  | q :: l =>
      match listMaxQ l with
      | none => some q
      | some m => some (max q m)

/-! ## Concrete sample inputs used by witnesses and counterexamples -/

/-- A candidate with only the merge-relevant fields populated. -/
def sampleSkill (name : String) (conf : ℚ) (ev : List String) (src : String) :
    ExtractedSkill :=
  { skill_name := strL name, skill_type := strL "explicit",
    confidence_score := conf, evidence := ev.map strL, cluster := none,
    microstory := none, state := none, source := strL src }

/-- Three case/whitespace variants of one name across three sources. -/
def sampleMergeInput : List (List ExtractedSkill) :=
  [[sampleSkill "Python" (4/5) ["a"] "Text"],
   [sampleSkill "python" (3/5) ["b"] "GitHub"],
   [sampleSkill " PYTHON " (2/5) ["c"] "Document"]]

/-- The single entry `mergeSkills sampleMergeInput` produces. -/
def sampleMerged : ExtractedSkill :=
  { skill_name := strL "Python", skill_type := strL "explicit",
    confidence_score := 11/20, evidence := [strL "a", strL "b", strL "c"],
    cluster := none, microstory := none, state := none,
    source := strL "Text, GitHub, Document" }

/-- The sourceLabel example scenario of the spec ("Text" plus "GitHub"). -/
def exC3input : List (List ExtractedSkill) :=
  [[sampleSkill "Python" (4/5) [] "Text"], [sampleSkill "python" (3/5) [] "GitHub"]]

/-- Two same-key candidates whose second source label is a substring of the
first one. -/
def cexC3input : List (List ExtractedSkill) :=
  [[sampleSkill "a" (1/2) [] "Text Input", sampleSkill "a" (1/2) [] "Text"]]

/-- A single candidate carrying a duplicated evidence snippet. -/
def cexC7input : List (List ExtractedSkill) :=
  [[sampleSkill "JavaScript" (1/2) ["x", "x"] "Document"]]

/-- A github-oracle skill that supplies a state contradicting its
confidence. -/
def cexC8skill : GithubRawSkill :=
  { skill_name := some (strL "TypeScript"), skill_type := some (strL "explicit"),
    confidence_score := some (9/10), evidence := none, cluster := none,
    microstory := none, state := some (strL "locked") }

/-- An oracle skill with only name and confidence. -/
def sampleOracleSkill (name : String) (conf : ℚ) : OracleSkill :=
  { skill_name := strL name, skill_type := strL "explicit",
    confidence_score := conf, evidence := none, cluster := none,
    microstory := none, state := none }

/-- All three sources present, the Document adapter failing. -/
def c5input : RunInput :=
  { file := true, githubUsername := strL "alice", githubToken := [],
    textInput := strL "cv text", autoMerge := true, profileId := strL "p1",
    docOracle := Except.error (strL "Failed to parse document"),
    githubOracle := Except.ok [sampleOracleSkill "Python" (4/5)],
    textOracle := Except.ok [sampleOracleSkill "SQL" (3/5)] }

/-- No file, whitespace-only username and text. -/
def c6input : RunInput :=
  { file := false, githubUsername := strL "   ", githubToken := [],
    textInput := strL "  ", autoMerge := true, profileId := strL "p1",
    docOracle := Except.ok [], githubOracle := Except.ok [],
    textOracle := Except.ok [] }

/-- Auto Merge off, two sources producing case variants of one name. -/
def c10input : RunInput :=
  { file := false, githubUsername := strL "alice", githubToken := [],
    textInput := strL "hi", autoMerge := false, profileId := strL "p1",
    docOracle := Except.ok [],
    githubOracle := Except.ok [sampleOracleSkill "Python" (4/5)],
    textOracle := Except.ok [sampleOracleSkill "python" (3/5)] }

/-- The invariant of the merge accumulator: every stored key is the merge
key of its stored skill, and keys never repeat. -/
def goodMap (m : List (List Char × ExtractedSkill)) : Prop :=
  (∀ p ∈ m, p.1 = skillKey p.2.skill_name) ∧ (m.map Prod.fst).Nodup

/-! ## Association-list lemmas for the JS Map model -/

theorem mapGet_mapSet_self (m : List (List Char × ExtractedSkill)) (k : List Char)
    (v : ExtractedSkill) : mapGet (mapSet m k v) k = some v := by
  induction m with
  | nil => simp [mapSet, mapGet]
  | cons p rest ih =>
      obtain ⟨k0, w⟩ := p
      by_cases h : k0 = k
      · simp [mapSet, mapGet, h]
      · simp [mapSet, mapGet, h, ih]

theorem mapGet_mapSet_ne (m : List (List Char × ExtractedSkill))
    (k0 k : List Char) (v : ExtractedSkill) (h : k0 ≠ k) :
    mapGet (mapSet m k0 v) k = mapGet m k := by
  induction m with
  | nil => simp [mapSet, mapGet, h]
  | cons p rest ih =>
      obtain ⟨k1, w⟩ := p
      by_cases h1 : k1 = k0
      · subst h1
        simp [mapSet, mapGet, h]
      · have hne : ¬k = k0 := fun hh => h hh.symm
        by_cases h2 : k1 = k
        · simp [mapSet, mapGet, h1, h2, hne]
        · simp [mapSet, mapGet, h1, h2, hne, ih]

theorem mapGet_mem {m : List (List Char × ExtractedSkill)} {k : List Char}
    {v : ExtractedSkill} (h : mapGet m k = some v) : (k, v) ∈ m := by
  induction m with
  | nil => simp [mapGet] at h
  | cons p rest ih =>
      obtain ⟨k0, w⟩ := p
      by_cases h0 : k0 = k
      · subst h0
        simp [mapGet] at h
        simp [h]
      · simp [mapGet, h0] at h
        simp [ih h]

theorem mem_mapGet {m : List (List Char × ExtractedSkill)}
    (hnd : (m.map Prod.fst).Nodup) {k : List Char} {v : ExtractedSkill}
    (h : (k, v) ∈ m) : mapGet m k = some v := by
  induction m with
  | nil => simp at h
  | cons p rest ih =>
      obtain ⟨k0, w⟩ := p
      rw [List.map_cons, List.nodup_cons] at hnd
      simp at h
      rcases h with ⟨hk, hv⟩ | h
      · subst hk; subst hv; simp [mapGet]
      · have hk0 : k0 ≠ k := by
          rintro rfl
          exact hnd.1 (List.mem_map.mpr ⟨(k0, v), h, rfl⟩)
        simp [mapGet, hk0]
        exact ih hnd.2 h

theorem mapGet_isSome_of_mem {m : List (List Char × ExtractedSkill)}
    {k : List Char} {v : ExtractedSkill} (h : (k, v) ∈ m) :
    (mapGet m k).isSome := by
  induction m with
  | nil => simp at h
  | cons p rest ih =>
      obtain ⟨k0, w⟩ := p
      by_cases h0 : k0 = k
      · simp [mapGet, h0]
      · simp at h
        rcases h with ⟨hk, _⟩ | h
        · exact absurd hk.symm h0
        · simp [mapGet, h0, ih h]

theorem mem_mapSet {m : List (List Char × ExtractedSkill)} {k : List Char}
    {v : ExtractedSkill} {p : List Char × ExtractedSkill}
    (h : p ∈ mapSet m k v) : p = (k, v) ∨ p ∈ m := by
  induction m with
  | nil => simp [mapSet] at h; simp [h]
  | cons q rest ih =>
      obtain ⟨k0, w⟩ := q
      by_cases h0 : k0 = k
      · subst h0
        simp [mapSet] at h
        rcases h with h | h
        · simp [h]
        · simp [h]
      · simp [mapSet, h0] at h
        rcases h with h | h
        · simp [h]
        · rcases ih h with h | h
          · simp [h]
          · simp [h]

theorem mapSet_keys_mem (m : List (List Char × ExtractedSkill)) (k : List Char)
    (v : ExtractedSkill) (hk : k ∈ m.map Prod.fst) :
    (mapSet m k v).map Prod.fst = m.map Prod.fst := by
  induction m with
  | nil => simp at hk
  | cons p rest ih =>
      obtain ⟨k0, w⟩ := p
      by_cases h0 : k0 = k
      · subst h0; simp [mapSet]
      · have hk2 : k ∈ rest.map Prod.fst := by
          rw [List.map_cons] at hk
          rcases List.mem_cons.mp hk with h | h
          · exact absurd h.symm h0
          · exact h
        simp [mapSet, h0, ih hk2]

theorem mapSet_keys_notMem (m : List (List Char × ExtractedSkill)) (k : List Char)
    (v : ExtractedSkill) (hk : k ∉ m.map Prod.fst) :
    (mapSet m k v).map Prod.fst = m.map Prod.fst ++ [k] := by
  induction m with
  | nil => simp [mapSet]
  | cons p rest ih =>
      obtain ⟨k0, w⟩ := p
      rw [List.map_cons] at hk
      have h0 : ¬k0 = k := by
        intro hh
        subst hh
        exact hk (List.mem_cons_self _ _)
      have hk2 : k ∉ rest.map Prod.fst := fun hh => hk (List.mem_cons_of_mem _ hh)
      simp [mapSet, h0, ih hk2]

theorem mapSet_keys_nodup (m : List (List Char × ExtractedSkill)) (k : List Char)
    (v : ExtractedSkill) (h : (m.map Prod.fst).Nodup) :
    ((mapSet m k v).map Prod.fst).Nodup := by
  by_cases hk : k ∈ m.map Prod.fst
  · rw [mapSet_keys_mem m k v hk]; exact h
  · rw [mapSet_keys_notMem m k v hk]
    simp [List.nodup_append, h, hk]

/-! ## The master description of the merge fold -/

theorem combineMany_cons (c x : ExtractedSkill) (cs : List ExtractedSkill) :
    combineMany c (x :: cs) = combineMany (combineSkills c x) cs := rfl

theorem mergeFold_get_some (l : List ExtractedSkill) :
    ∀ (m : List (List Char × ExtractedSkill)) (k : List Char) (e : ExtractedSkill),
      mapGet m k = some e →
      mapGet (l.foldl mergeStep m) k =
        some (combineMany e (l.filter (fun s => skillKey s.skill_name = k))) := by
  induction l with
  | nil => intro m k e h; simpa [combineMany] using h
  | cons s l ih =>
      intro m k e h
      rw [List.foldl_cons]
      by_cases hk : skillKey s.skill_name = k
      · have hget : mapGet m (skillKey s.skill_name) = some e := by rw [hk]; exact h
        have hstep : mapGet (mergeStep m s) k = some (combineSkills e s) := by
          simp only [mergeStep, hget]
          rw [hk, mapGet_mapSet_self]
        rw [ih (mergeStep m s) k (combineSkills e s) hstep, List.filter_cons]
        simp [hk, combineMany_cons]
      · have hne : skillKey s.skill_name ≠ k := hk
        have hstep : mapGet (mergeStep m s) k = some e := by
          simp only [mergeStep]
          rw [mapGet_mapSet_ne _ _ _ _ hne]
          exact h
        rw [ih (mergeStep m s) k e hstep, List.filter_cons]
        simp [hk]

theorem mergeFold_get_none (l : List ExtractedSkill) :
    ∀ (m : List (List Char × ExtractedSkill)) (k : List Char),
      mapGet m k = none →
      mapGet (l.foldl mergeStep m) k =
        (match l.filter (fun s => skillKey s.skill_name = k) with
         | [] => none
         | c :: cs => some (combineMany c cs)) := by
  induction l with
  | nil => intro m k h; simpa using h
  | cons s l ih =>
      intro m k h
      rw [List.foldl_cons]
      by_cases hk : skillKey s.skill_name = k
      · have hget : mapGet m (skillKey s.skill_name) = none := by rw [hk]; exact h
        have hstep : mapGet (mergeStep m s) k = some s := by
          simp only [mergeStep, hget]
          rw [hk, mapGet_mapSet_self]
        rw [mergeFold_get_some l (mergeStep m s) k s hstep, List.filter_cons]
        simp [hk]
      · have hne : skillKey s.skill_name ≠ k := hk
        have hstep : mapGet (mergeStep m s) k = none := by
          simp only [mergeStep]
          rw [mapGet_mapSet_ne _ _ _ _ hne]
          exact h
        rw [ih (mergeStep m s) k hstep, List.filter_cons]
        simp [hk]

theorem combineMany_fields (c : ExtractedSkill) (cs : List ExtractedSkill) :
    combineMany c cs =
      { skill_name := c.skill_name
        skill_type := c.skill_type
        confidence_score :=
          runAvg c.confidence_score (cs.map ExtractedSkill.confidence_score)
        evidence := evFold c.evidence cs
        cluster := c.cluster
        microstory := c.microstory
        state := c.state
        source := srcFold c.source cs } := by
  induction cs generalizing c with
  | nil => rfl
  | cons x cs ih =>
      rw [combineMany_cons, ih]
      simp [combineSkills, runAvg, evFold, srcFold]

theorem goodMap_nil : goodMap [] := by
  constructor
  · intro p hp; simp at hp
  · simp

theorem goodMap_mergeStep {m : List (List Char × ExtractedSkill)}
    (h : goodMap m) (s : ExtractedSkill) : goodMap (mergeStep m s) := by
  obtain ⟨h1, h2⟩ := h
  refine ⟨?_, mapSet_keys_nodup m _ _ h2⟩
  intro p hp
  rw [mergeStep] at hp
  rcases mem_mapSet hp with hp | hp
  · subst hp
    cases hget : mapGet m (skillKey s.skill_name) with
    | none => simp [hget]
    | some e =>
        have he := h1 (skillKey s.skill_name, e) (mapGet_mem hget)
        simp only [hget] at *
        simpa [combineSkills] using he
  · exact h1 p hp

theorem goodMap_fold (l : List ExtractedSkill) :
    ∀ m, goodMap m → goodMap (l.foldl mergeStep m) := by
  induction l with
  | nil => intro m h; exact h
  | cons s l ih =>
      intro m h
      rw [List.foldl_cons]
      exact ih _ (goodMap_mergeStep h s)

theorem mergeSkills_entry (A : List (List ExtractedSkill)) (t : ExtractedSkill)
    (h : t ∈ mergeSkills A) :
    ∃ c cs, mergeContrib A (skillKey t.skill_name) = c :: cs ∧
      t = combineMany c cs := by
  have hg := goodMap_fold A.flatten [] goodMap_nil
  rw [mergeSkills] at h
  rcases List.mem_map.mp h with ⟨p, hp, hpt⟩
  have hk : p.1 = skillKey t.skill_name := by rw [← hpt]; exact hg.1 p hp
  have hget : mapGet (A.flatten.foldl mergeStep []) p.1 = some p.2 :=
    mem_mapGet hg.2 hp
  have hmatch := mergeFold_get_none A.flatten [] p.1 rfl
  rw [hget] at hmatch
  cases hfil : A.flatten.filter (fun s => skillKey s.skill_name = p.1) with
  | nil => rw [hfil] at hmatch; simp at hmatch
  | cons c cs =>
      rw [hfil] at hmatch
      simp only [] at hmatch
      refine ⟨c, cs, ?_, ?_⟩
      · rw [mergeContrib, ← hk, hfil]
      · rw [← hpt]
        exact Option.some.inj hmatch

theorem mergeSkills_covers (A : List (List ExtractedSkill)) (k : List Char) :
    (∃ s ∈ A.flatten, skillKey s.skill_name = k) ↔
      (∃ t ∈ mergeSkills A, skillKey t.skill_name = k) := by
  have hg := goodMap_fold A.flatten [] goodMap_nil
  have hmatch := mergeFold_get_none A.flatten [] k rfl
  constructor
  · rintro ⟨s, hs, hks⟩
    cases hfil : A.flatten.filter (fun s => skillKey s.skill_name = k) with
    | nil =>
        exfalso
        have : s ∈ A.flatten.filter (fun s => skillKey s.skill_name = k) :=
          List.mem_filter.mpr ⟨hs, by simp [hks]⟩
        rw [hfil] at this
        simp at this
    | cons c cs =>
        rw [hfil] at hmatch
        have hmem := mapGet_mem hmatch
        refine ⟨combineMany c cs, ?_, ?_⟩
        · rw [mergeSkills]
          exact List.mem_map.mpr ⟨(k, combineMany c cs), hmem, rfl⟩
        · exact (hg.1 (k, combineMany c cs) hmem).symm
  · rintro ⟨t, ht, hkt⟩
    rcases mergeSkills_entry A t ht with ⟨c, cs, hfil, _⟩
    have hc : c ∈ mergeContrib A (skillKey t.skill_name) := by
      rw [hfil]; exact List.mem_cons_self _ _
    rw [mergeContrib] at hc
    rcases List.mem_filter.mp hc with ⟨hcmem, hck⟩
    refine ⟨c, hcmem, ?_⟩
    rw [hkt] at hck
    simpa using hck

/-! ## Set-dedup, substring and running-average helper lemmas -/

theorem mem_jsSetDedup_fold (l : List (List Char)) :
    ∀ (acc : List (List Char)) (x : List Char),
      x ∈ l.foldl (fun acc x => if x ∈ acc then acc else acc ++ [x]) acc ↔
        x ∈ acc ∨ x ∈ l := by
  induction l with
  | nil => intro acc x; simp
  | cons y l ih =>
      intro acc x
      rw [List.foldl_cons, ih]
      by_cases hy : y ∈ acc
      · simp only [hy, if_true, List.mem_cons]
        constructor
        · rintro (h | h)
          · exact Or.inl h
          · exact Or.inr (Or.inr h)
        · rintro (h | rfl | h)
          · exact Or.inl h
          · exact Or.inl hy
          · exact Or.inr h
      · simp only [hy, if_false, List.mem_append, List.mem_cons, or_assoc]
        simp

theorem mem_jsSetDedup {l : List (List Char)} {x : List Char} :
    x ∈ jsSetDedup l ↔ x ∈ l := by
  rw [jsSetDedup, mem_jsSetDedup_fold]
  simp

theorem nodup_jsSetDedup_fold (l : List (List Char)) :
    ∀ acc : List (List Char), acc.Nodup →
      (l.foldl (fun acc x => if x ∈ acc then acc else acc ++ [x]) acc).Nodup := by
  induction l with
  | nil => intro acc h; simpa using h
  | cons y l ih =>
      intro acc h
      rw [List.foldl_cons]
      apply ih
      by_cases hy : y ∈ acc
      · simpa [hy] using h
      · simp [hy, List.nodup_append, h]

theorem jsSetDedup_nodup (l : List (List Char)) : (jsSetDedup l).Nodup :=
  nodup_jsSetDedup_fold l [] (by simp)

theorem evFold_cons (e : List (List Char)) (s : ExtractedSkill)
    (cs : List ExtractedSkill) :
    evFold e (s :: cs) = evFold (jsSetDedup (e ++ s.evidence)) cs := rfl

theorem evFold_mem (cs : List ExtractedSkill) :
    ∀ (e : List (List Char)) (x : List Char),
      x ∈ evFold e cs ↔ x ∈ e ∨ ∃ s ∈ cs, x ∈ s.evidence := by
  induction cs with
  | nil => intro e x; simp [evFold]
  | cons s cs ih =>
      intro e x
      rw [evFold_cons, ih]
      simp only [mem_jsSetDedup, List.mem_append, List.mem_cons]
      constructor
      · rintro (h | h)
        · rcases h with h | h
          · exact Or.inl h
          · exact Or.inr ⟨s, Or.inl rfl, h⟩
        · rcases h with ⟨s2, hs2, hx⟩
          exact Or.inr ⟨s2, Or.inr hs2, hx⟩
      · rintro (h | ⟨s2, h2, hx⟩)
        · exact Or.inl (Or.inl h)
        · rcases h2 with rfl | h2
          · exact Or.inl (Or.inr hx)
          · exact Or.inr ⟨s2, h2, hx⟩

theorem evFold_nodup (cs : List ExtractedSkill) :
    ∀ e : List (List Char), cs ≠ [] → (evFold e cs).Nodup := by
  induction cs with
  | nil => intro e h; exact absurd rfl h
  | cons s cs ih =>
      intro e _
      cases cs with
      | nil => exact jsSetDedup_nodup _
      | cons s2 cs2 =>
          rw [evFold_cons]
          exact ih _ (by simp)

theorem jsStartsWith_self (a : List Char) : jsStartsWith a a = true := by
  induction a with
  | nil => rfl
  | cons c t ih => simp [jsStartsWith, ih]

theorem jsStartsWith_append (x : List Char) :
    ∀ a b : List Char, jsStartsWith a x = true → jsStartsWith (a ++ b) x = true := by
  induction x with
  | nil =>
      intro a b _
      cases a <;> cases b <;> simp [jsStartsWith]
  | cons d ds ih =>
      intro a b h
      cases a with
      | nil => simp [jsStartsWith] at h
      | cons c t =>
          simp only [jsStartsWith, Bool.and_eq_true, beq_iff_eq] at h
          simp only [List.cons_append, jsStartsWith, Bool.and_eq_true, beq_iff_eq]
          exact ⟨h.1, ih t b h.2⟩

theorem jsIncludes_nil_sub (big : List Char) : jsIncludes big [] = true := by
  cases big <;> simp [jsIncludes, jsStartsWith]

theorem jsIncludes_self (a : List Char) : jsIncludes a a = true := by
  cases a with
  | nil => rfl
  | cons c t => simp [jsIncludes, jsStartsWith_self]

theorem jsIncludes_append_left (x a b : List Char)
    (h : jsIncludes a x = true) : jsIncludes (a ++ b) x = true := by
  induction a with
  | nil =>
      simp only [jsIncludes, List.isEmpty_iff] at h
      subst h
      simpa using jsIncludes_nil_sub b
  | cons c t ih =>
      simp only [jsIncludes, Bool.or_eq_true] at h
      simp only [List.cons_append, jsIncludes, Bool.or_eq_true]
      rcases h with h | h
      · exact Or.inl (jsStartsWith_append x (c :: t) b h)
      · exact Or.inr (ih h)

theorem jsIncludes_append_right (x b a : List Char)
    (h : jsIncludes b x = true) : jsIncludes (a ++ b) x = true := by
  induction a with
  | nil => simpa using h
  | cons c t ih =>
      simp only [List.cons_append, jsIncludes, Bool.or_eq_true]
      exact Or.inr ih

theorem srcFold_cons (src : List Char) (s : ExtractedSkill)
    (cs : List ExtractedSkill) :
    srcFold src (s :: cs) =
      srcFold (if jsIncludes src s.source then src
               else src ++ commaSpace ++ s.source) cs := rfl

theorem srcFold_includes_mono (cs : List ExtractedSkill) :
    ∀ (src x : List Char), jsIncludes src x = true →
      jsIncludes (srcFold src cs) x = true := by
  induction cs with
  | nil => intro src x h; simpa [srcFold] using h
  | cons s cs ih =>
      intro src x h
      rw [srcFold_cons]
      apply ih
      by_cases hc : jsIncludes src s.source = true
      · simpa [hc] using h
      · simp only [hc, Bool.false_eq_true, if_false]
        exact jsIncludes_append_left x (src ++ commaSpace) s.source
          (jsIncludes_append_left x src commaSpace h)

theorem srcFold_includes_all (cs : List ExtractedSkill) :
    ∀ (src : List Char) (s : ExtractedSkill), s ∈ cs →
      jsIncludes (srcFold src cs) s.source = true := by
  induction cs with
  | nil => intro src s h; simp at h
  | cons c cs ih =>
      intro src s h
      rcases List.mem_cons.mp h with rfl | h
      · rw [srcFold_cons]
        apply srcFold_includes_mono
        by_cases hc : jsIncludes src s.source = true
        · simp [hc]
        · simp only [hc, Bool.false_eq_true, if_false]
          exact jsIncludes_append_right s.source s.source (src ++ commaSpace)
            (jsIncludes_self s.source)
      · rw [srcFold_cons]
        exact ih _ s h

theorem srcFold_includes_start (cs : List ExtractedSkill) (src : List Char) :
    jsIncludes (srcFold src cs) src = true :=
  srcFold_includes_mono cs src src (jsIncludes_self src)

theorem runAvg_cons (q x : ℚ) (l : List ℚ) :
    runAvg q (x :: l) = runAvg ((q + x) / 2) l := rfl

theorem runAvg_bounds (l : List ℚ) :
    ∀ q : ℚ, (∃ a, (a = q ∨ a ∈ l) ∧ a ≤ runAvg q l) ∧
             (∃ b, (b = q ∨ b ∈ l) ∧ runAvg q l ≤ b) := by
  induction l with
  | nil => intro q; exact ⟨⟨q, Or.inl rfl, le_refl _⟩, ⟨q, Or.inl rfl, le_refl _⟩⟩
  | cons x l ih =>
      intro q
      rw [runAvg_cons]
      obtain ⟨⟨a, ha, hale⟩, ⟨b, hb, hble⟩⟩ := ih ((q + x) / 2)
      constructor
      · rcases ha with rfl | ha
        · rcases le_total q x with hqx | hqx
          · exact ⟨q, Or.inl rfl, le_trans (by linarith) hale⟩
          · exact ⟨x, Or.inr (List.mem_cons_self _ _), le_trans (by linarith) hale⟩
        · exact ⟨a, Or.inr (List.mem_cons_of_mem _ ha), hale⟩
      · rcases hb with rfl | hb
        · rcases le_total q x with hqx | hqx
          · exact ⟨x, Or.inr (List.mem_cons_self _ _), le_trans hble (by linarith)⟩
          · exact ⟨q, Or.inl rfl, le_trans hble (by linarith)⟩
        · exact ⟨b, Or.inr (List.mem_cons_of_mem _ hb), hble⟩

theorem listMinQ_none (l : List ℚ) : listMinQ l = none ↔ l = [] := by
  cases l with
  | nil => simp [listMinQ]
  | cons q l =>
      simp only [listMinQ]
      cases listMinQ l <;> simp

theorem listMaxQ_none (l : List ℚ) : listMaxQ l = none ↔ l = [] := by
  cases l with
  | nil => simp [listMaxQ]
  | cons q l =>
      simp only [listMaxQ]
      cases listMaxQ l <;> simp

theorem listMinQ_le (l : List ℚ) :
    ∀ m a : ℚ, listMinQ l = some m → a ∈ l → m ≤ a := by
  induction l with
  | nil => intro m a _ ha; simp at ha
  | cons q l ih =>
      intro m a h ha
      cases hl : listMinQ l with
      | none =>
          have : l = [] := (listMinQ_none l).mp hl
          subst this
          simp only [listMinQ] at h
          simp at ha
          rw [ha, ← Option.some.inj h]
      | some m0 =>
          rw [listMinQ, hl] at h
          have hm : m = min q m0 := (Option.some.inj h).symm
          rcases List.mem_cons.mp ha with rfl | ha
          · rw [hm]; exact min_le_left _ _
          · exact le_trans (le_trans (le_of_eq hm) (min_le_right _ _))
              (ih m0 a hl ha)

theorem listMaxQ_ge (l : List ℚ) :
    ∀ m a : ℚ, listMaxQ l = some m → a ∈ l → a ≤ m := by
  induction l with
  | nil => intro m a _ ha; simp at ha
  | cons q l ih =>
      intro m a h ha
      cases hl : listMaxQ l with
      | none =>
          have : l = [] := (listMaxQ_none l).mp hl
          subst this
          simp only [listMaxQ] at h
          simp at ha
          rw [ha, ← Option.some.inj h]
      | some m0 =>
          rw [listMaxQ, hl] at h
          have hm : m = max q m0 := (Option.some.inj h).symm
          rcases List.mem_cons.mp ha with rfl | ha
          · rw [hm]; exact le_max_left _ _
          · exact le_trans (ih m0 a hl ha)
              (le_trans (le_max_right _ _) (le_of_eq hm.symm))

theorem listMinQ_cons_isSome (q : ℚ) (l : List ℚ) :
    ∃ m, listMinQ (q :: l) = some m := by
  simp only [listMinQ]
  cases listMinQ l <;> exact ⟨_, rfl⟩

theorem listMaxQ_cons_isSome (q : ℚ) (l : List ℚ) :
    ∃ m, listMaxQ (q :: l) = some m := by
  simp only [listMaxQ]
  cases listMaxQ l <;> exact ⟨_, rfl⟩

/-! ## Concrete evaluations shared by witnesses and examples -/

theorem sampleMerge_eval : mergeSkills sampleMergeInput = [sampleMerged] := by
  simp +decide [mergeSkills, mergeStep, mapGet, mapSet, combineSkills, skillKey,
    jsSetDedup, commaSpace, sampleMergeInput, sampleSkill, sampleMerged, strL]
  norm_num

theorem sampleContrib_eval :
    mergeContrib sampleMergeInput (skillKey sampleMerged.skill_name) =
      sampleMergeInput.flatten := by
  simp +decide [mergeContrib, sampleMergeInput, sampleSkill, sampleMerged,
    skillKey, strL]

/-! ## The claims -/

/-- C1: for every candidate list, the Aggregator produces at most one merged
skill per case-folded trimmed name: output entries have pairwise distinct
merge keys, and a key occurs among the output entries exactly when some input
candidate carries it (so all candidates sharing a key feed one entry). -/
theorem spec_C1 (A : List (List ExtractedSkill)) :
    ((mergeSkills A).map (fun t => skillKey t.skill_name)).Nodup ∧
    ∀ k : List Char,
      (∃ s ∈ A.flatten, skillKey s.skill_name = k) ↔
        ∃ t ∈ mergeSkills A, skillKey t.skill_name = k := by
  have hg := goodMap_fold A.flatten [] goodMap_nil
  constructor
  · rw [mergeSkills]
    have hmap :
        ((A.flatten.foldl mergeStep []).map Prod.snd).map
            (fun t => skillKey t.skill_name) =
          (A.flatten.foldl mergeStep []).map Prod.fst := by
      rw [List.map_map]
      apply List.map_congr_left
      intro p hp
      exact (hg.1 p hp).symm
    rw [hmap]
    exact hg.2
  · intro k
    exact mergeSkills_covers A k

/-- C2: a duplicate key averages the accumulator with the newcomer, so every
merged confidence is the left fold of pairwise averaging over the key's
contributors in input order; on a three-contributor input this differs from
the true arithmetic mean. -/
theorem spec_C2 :
    (∀ (A : List (List ExtractedSkill)) (t : ExtractedSkill), t ∈ mergeSkills A →
        ∃ c cs, mergeContrib A (skillKey t.skill_name) = c :: cs ∧
          t.confidence_score =
            runAvg c.confidence_score (cs.map ExtractedSkill.confidence_score)) ∧
    (∃ t ∈ mergeSkills sampleMergeInput,
        t.confidence_score ≠
          ((mergeContrib sampleMergeInput (skillKey t.skill_name)).map
              ExtractedSkill.confidence_score).sum /
            ((mergeContrib sampleMergeInput (skillKey t.skill_name)).length : ℚ)) := by
  constructor
  · intro A t ht
    rcases mergeSkills_entry A t ht with ⟨c, cs, hfil, hcomb⟩
    refine ⟨c, cs, hfil, ?_⟩
    rw [hcomb, combineMany_fields]
  · refine ⟨sampleMerged, ?_, ?_⟩
    · rw [sampleMerge_eval]
      simp
    · rw [sampleContrib_eval]
      norm_num [sampleMergeInput, sampleSkill, sampleMerged]

/-- C4: every merged confidence lies between the minimum and the maximum of
its contributors' confidences, inclusive. -/
theorem spec_C4 (A : List (List ExtractedSkill)) (t : ExtractedSkill)
    (h : t ∈ mergeSkills A) :
    ∃ lo hi,
      listMinQ ((mergeContrib A (skillKey t.skill_name)).map
        ExtractedSkill.confidence_score) = some lo ∧
      listMaxQ ((mergeContrib A (skillKey t.skill_name)).map
        ExtractedSkill.confidence_score) = some hi ∧
      lo ≤ t.confidence_score ∧ t.confidence_score ≤ hi := by
  rcases mergeSkills_entry A t h with ⟨c, cs, hfil, hcomb⟩
  have hconf : t.confidence_score =
      runAvg c.confidence_score (cs.map ExtractedSkill.confidence_score) := by
    rw [hcomb, combineMany_fields]
  rw [hfil, List.map_cons]
  obtain ⟨lo, hlo⟩ :=
    listMinQ_cons_isSome c.confidence_score (cs.map ExtractedSkill.confidence_score)
  obtain ⟨hi, hhi⟩ :=
    listMaxQ_cons_isSome c.confidence_score (cs.map ExtractedSkill.confidence_score)
  obtain ⟨⟨a, ha, hale⟩, ⟨b, hb, hble⟩⟩ :=
    runAvg_bounds (cs.map ExtractedSkill.confidence_score) c.confidence_score
  refine ⟨lo, hi, hlo, hhi, ?_, ?_⟩
  · rw [hconf]
    refine le_trans (listMinQ_le _ lo a hlo ?_) hale
    rcases ha with rfl | ha
    · exact List.mem_cons_self _ _
    · exact List.mem_cons_of_mem _ ha
  · rw [hconf]
    refine le_trans hble (listMaxQ_ge _ hi b hhi ?_)
    rcases hb with rfl | hb
    · exact List.mem_cons_self _ _
    · exact List.mem_cons_of_mem _ hb

/-- C4 witness: the bounds at the concrete three-contributor input. -/
theorem spec_C4_w :
    ∃ lo hi,
      listMinQ ((mergeContrib sampleMergeInput (skillKey sampleMerged.skill_name)).map
        ExtractedSkill.confidence_score) = some lo ∧
      listMaxQ ((mergeContrib sampleMergeInput (skillKey sampleMerged.skill_name)).map
        ExtractedSkill.confidence_score) = some hi ∧
      lo ≤ sampleMerged.confidence_score ∧ sampleMerged.confidence_score ≤ hi :=
  spec_C4 sampleMergeInput sampleMerged (by rw [sampleMerge_eval]; simp)

/-- C3 (amended): the merged sourceLabel is the left fold that appends
", " plus the newcomer's label only when the label is not already a
substring of the accumulated string; hence every contributing label occurs
as a substring (not necessarily as a separate comma-segment) of the merged
sourceLabel, and the spec's example (one "Text" candidate plus one "GitHub"
candidate) yields "Text, GitHub". -/
theorem spec_C3 :
    (∀ (A : List (List ExtractedSkill)) (t : ExtractedSkill), t ∈ mergeSkills A →
        ∃ c cs, mergeContrib A (skillKey t.skill_name) = c :: cs ∧
          t.source = srcFold c.source cs ∧
          ∀ s ∈ mergeContrib A (skillKey t.skill_name),
            jsIncludes t.source s.source = true) ∧
    (mergeSkills exC3input).map ExtractedSkill.source = [strL "Text, GitHub"] := by
  constructor
  · intro A t ht
    rcases mergeSkills_entry A t ht with ⟨c, cs, hfil, hcomb⟩
    have hsrc : t.source = srcFold c.source cs := by
      rw [hcomb, combineMany_fields]
    refine ⟨c, cs, hfil, hsrc, ?_⟩
    intro s hs
    rw [hfil] at hs
    rw [hsrc]
    rcases List.mem_cons.mp hs with rfl | hs
    · exact srcFold_includes_start cs s.source
    · exact srcFold_includes_all cs c.source s hs
  · simp +decide [mergeSkills, mergeStep, mapGet, mapSet, combineSkills, skillKey,
      jsSetDedup, commaSpace, exC3input, sampleSkill, strL]

/-- C3 counterexample: with contributors labelled "Text Input" then "Text",
the merged sourceLabel is just "Text Input": the contributing label "Text"
is a substring, so it is never appended and is not a comma-segment of the
result. -/
theorem spec_C3_cex :
    (mergeSkills cexC3input).map ExtractedSkill.source = [strL "Text Input"] ∧
    (cexC3input.flatten).map ExtractedSkill.source =
      [strL "Text Input", strL "Text"] ∧
    (cexC3input.flatten).map (fun s => skillKey s.skill_name) =
      [strL "a", strL "a"] ∧
    strL "Text" ∉ splitCommaSpace (strL "Text Input") := by
  refine ⟨?_, ?_, ?_, ?_⟩
  · simp +decide [mergeSkills, mergeStep, mapGet, mapSet, combineSkills, skillKey,
      jsSetDedup, commaSpace, cexC3input, sampleSkill, strL]
  · decide
  · decide
  · decide

/-- C7 (amended): merged evidence is exactly the union of the contributors'
evidence; entries built from at least two contributors are deduplicated by
exact string equality, but a single-contributor entry keeps its candidate's
evidence list verbatim, duplicates included. -/
theorem spec_C7 (A : List (List ExtractedSkill)) (t : ExtractedSkill)
    (h : t ∈ mergeSkills A) :
    (∀ x : List Char, x ∈ t.evidence ↔
        ∃ s ∈ mergeContrib A (skillKey t.skill_name), x ∈ s.evidence) ∧
    (2 ≤ (mergeContrib A (skillKey t.skill_name)).length → t.evidence.Nodup) ∧
    (∀ c, mergeContrib A (skillKey t.skill_name) = [c] → t.evidence = c.evidence) := by
  rcases mergeSkills_entry A t h with ⟨c, cs, hfil, hcomb⟩
  have hev : t.evidence = evFold c.evidence cs := by
    rw [hcomb, combineMany_fields]
  refine ⟨?_, ?_, ?_⟩
  · intro x
    rw [hev, evFold_mem, hfil]
    constructor
    · rintro (hx | ⟨s, hs, hx⟩)
      · exact ⟨c, List.mem_cons_self _ _, hx⟩
      · exact ⟨s, List.mem_cons_of_mem _ hs, hx⟩
    · rintro ⟨s, hs, hx⟩
      rcases List.mem_cons.mp hs with rfl | hs
      · exact Or.inl hx
      · exact Or.inr ⟨s, hs, hx⟩
  · intro hlen
    rw [hfil] at hlen
    rw [hev]
    apply evFold_nodup
    intro hcs
    subst hcs
    simp at hlen
  · intro c2 hc2
    rw [hfil] at hc2
    injection hc2 with h1 h2
    subst h1
    subst h2
    rw [hev]
    rfl

/-- C7 witness: the union-and-dedup facts at the concrete three-contributor
input. -/
theorem spec_C7_w :
    (∀ x : List Char, x ∈ sampleMerged.evidence ↔
        ∃ s ∈ mergeContrib sampleMergeInput (skillKey sampleMerged.skill_name),
          x ∈ s.evidence) ∧
    (2 ≤ (mergeContrib sampleMergeInput (skillKey sampleMerged.skill_name)).length →
        sampleMerged.evidence.Nodup) ∧
    (∀ c, mergeContrib sampleMergeInput (skillKey sampleMerged.skill_name) = [c] →
        sampleMerged.evidence = c.evidence) :=
  spec_C7 sampleMergeInput sampleMerged (by rw [sampleMerge_eval]; simp)

/-- C7 counterexample: a single candidate with a duplicated snippet passes
through the merge verbatim, so the merged evidence holds the exact string
"x" twice. -/
theorem spec_C7_cex :
    (mergeSkills cexC7input).map ExtractedSkill.evidence = [[strL "x", strL "x"]] ∧
    ¬ ([strL "x", strL "x"] : List (List Char)).Nodup := by
  constructor
  · simp +decide [mergeSkills, mergeStep, mapGet, mapSet, skillKey,
      cexC7input, sampleSkill, strL]
  · decide

/-- C8 (amended): extract-skills derives a missing (or empty) state from the
clamped confidence, locked below 0.5 and unlocked otherwise, and keeps a
supplied nonempty state; github-skill-extract instead always recomputes
state from the raw supplied confidence (absent compares false, so locked),
discarding any supplied state; the client-side decoration defaults a missing
state to unlocked regardless of confidence. -/
theorem spec_C8 :
    (∀ s : RawSkillIn, s.state = none ∨ s.state = some [] →
        (normalizeExtractSkill s).state =
          (if (normalizeExtractSkill s).confidence_score < 1/2 then strL "locked"
           else strL "unlocked")) ∧
    (∀ (s : RawSkillIn) (v : List Char), s.state = some v → v ≠ [] →
        (normalizeExtractSkill s).state = v) ∧
    (∀ (u : List Char) (s : GithubRawSkill),
        (githubNormalizeSkill u s).state =
          (githubNormalizeSkill u { s with state := none }).state) ∧
    (∀ (u : List Char) (s : GithubRawSkill),
        (githubNormalizeSkill u s).state =
          (match s.confidence_score with
           | some q => if 1/2 ≤ q then strL "unlocked" else strL "locked"
           | none => strL "locked")) ∧
    (∀ (lbl cd : List Char) (s : OracleSkill), s.state = none →
        (decorateSkill lbl cd s).state = some (strL "unlocked")) := by
  refine ⟨?_, ?_, ?_, ?_, ?_⟩
  · intro s hs
    rcases hs with hs | hs <;> simp [normalizeExtractSkill, jsOrStr, hs]
  · intro s v hv hne
    have hemp : v.isEmpty = false := by
      cases v with
      | nil => exact absurd rfl hne
      | cons c t => rfl
    simp [normalizeExtractSkill, jsOrStr, hv, hemp]
  · intro u s
    rfl
  · intro u s
    rfl
  · intro lbl cd s hs
    simp [decorateSkill, jsOrStr, hs]

/-- C8 counterexample: a github-oracle skill arriving with confidence 0.9
and state "locked" leaves the github normalization with state "unlocked":
the supplied state value is not kept. -/
theorem spec_C8_cex :
    (githubNormalizeSkill (strL "alice") cexC8skill).state = strL "unlocked" ∧
    cexC8skill.state = some (strL "locked") := by
  constructor
  · norm_num [githubNormalizeSkill, cexC8skill]
  · rfl

/-- C5: for every run with at least one launched source and any per-source
outcomes, the run is not rejected; each launched source that fails moves to
the error status alone, carrying its message and a count of 0, each launched
source that succeeds completes with its candidate count, and the merge input
holds exactly the successful sources' candidate lists — a failure in one
source never aborts the others or contributes to the merged output. -/
theorem spec_C5 (inp : RunInput) (hm : inp.autoMerge = true)
    (hne : (availableSources inp).isEmpty = false) :
    (handleAggregateExtract inp).rejected = none ∧
    (handleAggregateExtract inp).statuses =
      (if docPresent inp then
        [match inp.docOracle with
         | Except.error e =>
             { name := strL "Document", status := SourceStatus.error,
               skillsCount := 0, error := some e }
         | Except.ok dl =>
             { name := strL "Document", status := SourceStatus.completed,
               skillsCount := dl.length, error := none }]
       else []) ++
      (if githubPresent inp then
        [match inp.githubOracle with
         | Except.error e =>
             { name := strL "GitHub", status := SourceStatus.error,
               skillsCount := 0, error := some e }
         | Except.ok gl =>
             { name := strL "GitHub", status := SourceStatus.completed,
               skillsCount := gl.length, error := none }]
       else []) ++
      (if textPresent inp then
        [match inp.textOracle with
         | Except.error e =>
             { name := strL "Text", status := SourceStatus.error,
               skillsCount := 0, error := some e }
         | Except.ok tl =>
             { name := strL "Text", status := SourceStatus.completed,
               skillsCount := tl.length, error := none }]
       else []) ∧
    (handleAggregateExtract inp).merged =
      mergeSkills
        ((if docPresent inp then
            match inp.docOracle with
            | Except.error _ => []
            | Except.ok dl =>
                [dl.map (decorateSkill (strL "Document") (strL "Other"))]
          else []) ++
         (if githubPresent inp then
            match inp.githubOracle with
            | Except.error _ => []
            | Except.ok gl =>
                [gl.map (decorateSkill (strL "GitHub") (strL "Technical"))]
          else []) ++
         (if textPresent inp then
            match inp.textOracle with
            | Except.error _ => []
            | Except.ok tl =>
                [tl.map (decorateSkill (strL "Text Input") (strL "Other"))]
          else [])) := by
  refine ⟨?_, ?_, ?_⟩
  · simp [handleAggregateExtract, hne]
  · rcases hdoc : inp.docOracle with e1 | dl <;>
      rcases hgh : inp.githubOracle with e2 | gl <;>
      rcases htx : inp.textOracle with e3 | tl <;>
      by_cases h1 : docPresent inp = true <;>
      by_cases h2 : githubPresent inp = true <;>
      by_cases h3 : textPresent inp = true <;>
      simp [handleAggregateExtract, extractionResults, runExtract, hne,
        h1, h2, h3, hdoc, hgh, htx]
  · rcases hdoc : inp.docOracle with e1 | dl <;>
      rcases hgh : inp.githubOracle with e2 | gl <;>
      rcases htx : inp.textOracle with e3 | tl <;>
      by_cases h1 : docPresent inp = true <;>
      by_cases h2 : githubPresent inp = true <;>
      by_cases h3 : textPresent inp = true <;>
      simp [handleAggregateExtract, extractionResults, runExtract, mergeSkills,
        hne, hm, h1, h2, h3, hdoc, hgh, htx]

/-- C5 witness: the concrete run where the Document adapter fails while the
launched GitHub and Text sources succeed. -/
theorem spec_C5_w :
    (handleAggregateExtract c5input).rejected = none ∧
    (handleAggregateExtract c5input).statuses =
      (if docPresent c5input then
        [match c5input.docOracle with
         | Except.error e =>
             { name := strL "Document", status := SourceStatus.error,
               skillsCount := 0, error := some e }
         | Except.ok dl =>
             { name := strL "Document", status := SourceStatus.completed,
               skillsCount := dl.length, error := none }]
       else []) ++
      (if githubPresent c5input then
        [match c5input.githubOracle with
         | Except.error e =>
             { name := strL "GitHub", status := SourceStatus.error,
               skillsCount := 0, error := some e }
         | Except.ok gl =>
             { name := strL "GitHub", status := SourceStatus.completed,
               skillsCount := gl.length, error := none }]
       else []) ++
      (if textPresent c5input then
        [match c5input.textOracle with
         | Except.error e =>
             { name := strL "Text", status := SourceStatus.error,
               skillsCount := 0, error := some e }
         | Except.ok tl =>
             { name := strL "Text", status := SourceStatus.completed,
               skillsCount := tl.length, error := none }]
       else []) ∧
    (handleAggregateExtract c5input).merged =
      mergeSkills
        ((if docPresent c5input then
            match c5input.docOracle with
            | Except.error _ => []
            | Except.ok dl =>
                [dl.map (decorateSkill (strL "Document") (strL "Other"))]
          else []) ++
         (if githubPresent c5input then
            match c5input.githubOracle with
            | Except.error _ => []
            | Except.ok gl =>
                [gl.map (decorateSkill (strL "GitHub") (strL "Technical"))]
          else []) ++
         (if textPresent c5input then
            match c5input.textOracle with
            | Except.error _ => []
            | Except.ok tl =>
                [tl.map (decorateSkill (strL "Text Input") (strL "Other"))]
          else [])) :=
  spec_C5 c5input rfl (by decide)

/-- C6: with no file, a whitespace-only username and whitespace-only text,
the run is rejected with the no-input message before any adapter is invoked
and nothing is merged or persisted. -/
theorem spec_C6 (inp : RunInput) (hf : inp.file = false)
    (hg : (jsTrim inp.githubUsername).isEmpty = true)
    (ht : (jsTrim inp.textInput).isEmpty = true) :
    (handleAggregateExtract inp).rejected = some noInputMsg ∧
    (handleAggregateExtract inp).invoked = [] ∧
    (handleAggregateExtract inp).statuses = [] ∧
    (handleAggregateExtract inp).merged = [] ∧
    (handleAggregateExtract inp).persisted = none := by
  have h1 : (availableSources inp).isEmpty = true := by
    simp [availableSources, docPresent, githubPresent, textPresent, hf, hg, ht]
  simp [handleAggregateExtract, h1]

/-- C6 witness: the rejection at a concrete empty-input run. -/
theorem spec_C6_w :
    (handleAggregateExtract c6input).rejected = some noInputMsg ∧
    (handleAggregateExtract c6input).invoked = [] ∧
    (handleAggregateExtract c6input).statuses = [] ∧
    (handleAggregateExtract c6input).merged = [] ∧
    (handleAggregateExtract c6input).persisted = none :=
  spec_C6 c6input rfl (by decide) (by decide)

/-- C9: every client request body for github-skill-extract carries the keys
"username" and "token", while the function destructures "githubUsername";
the lookup misses, the guard throws, and the function answers with the error
"GitHub username is required" whatever username and token were entered and
whether or not the API key is configured. -/
theorem spec_C9 (username token : List Char) (googleApiKey : Option (List Char)) :
    githubServeGuard (clientGithubBody username token) googleApiKey =
      Except.error (strL "GitHub username is required") := by
  have hlook : jsLookupBody (clientGithubBody username token)
      (strL "githubUsername") = none := by
    by_cases h : token.isEmpty
    · simp +decide [clientGithubBody, jsLookupBody, h, strL]
    · simp +decide [clientGithubBody, jsLookupBody, h, strL]
  simp only [githubServeGuard, hlook]

/-- C10: with Auto Merge off, the run persists the plain concatenation of
the per-source candidate lists with no merging: at the concrete two-source
input, both case variants of "python" stay separate records. -/
theorem spec_C10 (inp : RunInput) (hm : inp.autoMerge = false)
    (hne : (availableSources inp).isEmpty = false) :
    ((handleAggregateExtract inp).merged =
        docSkillList inp ++ githubSkillList inp ++ textSkillList inp) ∧
    ((handleAggregateExtract inp).persisted =
        if (docSkillList inp ++ githubSkillList inp ++ textSkillList inp).isEmpty
        then none
        else some ((docSkillList inp ++ githubSkillList inp ++
          textSkillList inp).map (toInsertRec inp.profileId))) ∧
    ((handleAggregateExtract c10input).merged.map (fun s => skillKey s.skill_name) =
        [strL "python", strL "python"]) ∧
    ((handleAggregateExtract c10input).merged.length = 2) := by
  have hflat : ((extractionResults inp).map Prod.snd).flatten =
      docSkillList inp ++ githubSkillList inp ++ textSkillList inp := by
    rw [extractionResults, docSkillList, githubSkillList, textSkillList]
    by_cases h1 : docPresent inp = true <;> by_cases h2 : githubPresent inp = true <;>
      by_cases h3 : textPresent inp = true <;> simp [h1, h2, h3]
  refine ⟨?_, ?_, ?_, ?_⟩
  · simp [handleAggregateExtract, hne, hm, hflat]
  · simp [handleAggregateExtract, hne, hm, hflat]
  · simp +decide [handleAggregateExtract, availableSources, extractionResults,
      docPresent, githubPresent, textPresent, runExtract, decorateSkill,
      c10input, sampleOracleSkill, skillKey, strL]
  · simp +decide [handleAggregateExtract, availableSources, extractionResults,
      docPresent, githubPresent, textPresent, runExtract, decorateSkill,
      c10input, sampleOracleSkill, strL]

/-- C10 witness: the no-merge concatenation at the concrete input. -/
theorem spec_C10_w :
    ((handleAggregateExtract c10input).merged =
        docSkillList c10input ++ githubSkillList c10input ++
          textSkillList c10input) ∧
    ((handleAggregateExtract c10input).persisted =
        if (docSkillList c10input ++ githubSkillList c10input ++
            textSkillList c10input).isEmpty
        then none
        else some ((docSkillList c10input ++ githubSkillList c10input ++
          textSkillList c10input).map (toInsertRec c10input.profileId))) ∧
    ((handleAggregateExtract c10input).merged.map (fun s => skillKey s.skill_name) =
        [strL "python", strL "python"]) ∧
    ((handleAggregateExtract c10input).merged.length = 2) :=
  spec_C10 c10input rfl (by decide)
